import Mathlib

/-!
# whichlang trainer: normalisation, tree conversion and threshold centering

A shallow embedding of `trainer/classifier.go`.

Modelling conventions.

* `float64` is modelled by the rationals `ℚ` (exact arithmetic): every
  statement below is about the arithmetic the code writes down, not about
  IEEE rounding. Rounding and overflow of binary64 have no counterpart here:
  in `normalizeKeywords` the real `1 / totalSum` overflows to `+Inf` for a
  subnormal total and `f[word] * scaler` rounds, so what is proved of its
  values is proved of the exact quotients only.
* A Go `map[string]float64` is an association list with at most the first
  binding of a key visible; reading an absent key gives the zero value `0`,
  as in Go.
* A Go pointer to a struct is the struct type with an extra `nil`
  constructor; dereferencing `nil` (a run-time panic) and an explicit
  `panic` are both the result `none`.
* The order of a `range` over a Go map is unspecified: where a result depends on
  it (`Keywords`), the model is the relation to every listing of the key set.
* `fmt`'s verb `%f` and `strconv.ParseFloat` belong to the Go standard library;
  they are modelled on plain decimal literals, in exact arithmetic.
-/

namespace Whichlang

/-! ## Data model -/

/-- Modelled from the spec: the type `whichlang.Frequencies` (declared outside the
trainer file), a Go `map[string]float64` from words to frequencies. -/
abbrev Frequencies := List (String × ℚ)

/-- The map read `f[word]`: the bound value, or the zero value when `word` is absent. -/
def Frequencies.get (f : Frequencies) (word : String) : ℚ :=
  match f with
  | [] => 0
  | (k, x) :: rest => if k = word then x else Frequencies.get rest word

/-- The map write `f[word] = x`: overwrite the binding when present, add it otherwise. -/
def Frequencies.set (f : Frequencies) (word : String) (x : ℚ) : Frequencies :=
  match f with
  | [] => [(word, x)]
  | (k, y) :: rest => if k = word then (k, x) :: rest else (k, y) :: Frequencies.set rest word x

/-- The key set of the map, as a list. -/
def Frequencies.keys (f : Frequencies) : List String := f.map Prod.fst

/-- Modelled from the spec: the type `whichlang.ClassifierNode` (declared outside the
trainer file): a leaf flag, a leaf label, a keyword, a threshold and two child
pointers. `nil` is the nil pointer. -/
inductive ClassifierNode where
  | nil : ClassifierNode
  | node (Leaf : Bool) (LeafClassification : String) (Keyword : String) (Threshold : ℚ)
      (FalseBranch : ClassifierNode) (TrueBranch : ClassifierNode) : ClassifierNode
  deriving DecidableEq, Repr

/-- Modelled from the spec: the type `idtrees.TreeNode` of the tree-induction library
(an external capability): `BranchField` is the label of the branch feature (absent
at a leaf), `LeafValue` the string of the class value (possibly absent), and the
two children are the entries of `Branches` at the boolean outcomes `false` and
`true` (`nil` when the entry is missing). -/
inductive TreeNode where
  | nil : TreeNode
  | node (BranchField : Option String) (LeafValue : Option String)
      (BranchFalse : TreeNode) (BranchTrue : TreeNode) : TreeNode
  deriving DecidableEq, Repr

/-! ## normalizeKeywords -/

/-- The first loop of `normalizeKeywords`: `totalSum += f[word]` over `k`. -/
def totalSum (f : Frequencies) (k : List String) : ℚ :=
  k.foldl (fun s word => s + f.get word) 0

/-- The value of `scaler` in `normalizeKeywords`: a zero total is replaced by `1`. -/
def scaler (f : Frequencies) (k : List String) : ℚ :=
  1 / (if totalSum f k = 0 then 1 else totalSum f k)

/-- The function `normalizeKeywords` of the trainer: a fresh map, written once per word
of `k` with `f[word] * scaler`, the product and the quotient `1 / totalSum` taken in
exact arithmetic. -/
def normalizeKeywords (f : Frequencies) (k : List String) : Frequencies :=
  k.foldl (fun res word => res.set word (f.get word * scaler f k)) []

/-- The second loop of `normalizeKeywords` with any value function: the map built by writing `g word` at every `word` of `k`, starting from `acc`. -/
def writeAll (g : String → ℚ) (k : List String) (acc : Frequencies) : Frequencies :=
  k.foldl (fun res word => res.set word (g word)) acc

/-! ## convertTree -/

/-- Splitting a character list at every occurrence of `sep`. -/
def splitChars (sep : Char) : List Char → List (List Char)
  | [] => [[]]
  | c :: cs =>
    if c = sep then [] :: splitChars sep cs
    else
      match splitChars sep cs with
      | [] => [[c]]
      | h :: t => (c :: h) :: t

/-- The call `strings.Split(s, " ")`. -/
def stringsSplit (s : String) : List String :=
  (splitChars ' ' s.data).map String.mk

/-- The function `convertTree` of the trainer. `ParseFloat` stands for
`strconv.ParseFloat(·, 64)`, of which the code keeps the value and discards the
error. The result `none` is a panic (the explicit one, or a nil dereference). -/
def convertTree (ParseFloat : String → ℚ) : TreeNode → Option ClassifierNode
  | .nil => none
  | .node none none _ _ => some (.node true "Unknown" "" 0 .nil .nil)
  | .node none (some leafValue) _ _ => some (.node true leafValue "" 0 .nil .nil)
  | .node (some branchField) _ branchFalse branchTrue =>
    match stringsSplit branchField with
    | [c0, _, c2] =>
      match convertTree ParseFloat branchFalse with
      | none => none
      | some falseBranch =>
        match convertTree ParseFloat branchTrue with
        | none => none
        | some trueBranch => some (.node false "" c0 (ParseFloat c2) falseBranch trueBranch)
    | _ => none

/-! ## Threshold centering -/

/-- One iteration of the loop of `centerThresholdsForNode`, at index `i`, on the pair
`(lowerSide, upperSide)`. -/
def centerStep (keyword : String) (threshold : ℚ) (i : Nat) (vec : Frequencies)
    (sides : ℚ × ℚ) : ℚ × ℚ :=
  if vec.get keyword ≤ threshold then
    if i = 0 ∨ vec.get keyword > sides.1 then (threshold, sides.2) else sides
  else
    if i = 0 ∨ vec.get keyword < sides.2 then (sides.1, threshold) else sides

/-- The loop `for i, vec := range vecs` of `centerThresholdsForNode`, from index `i`. -/
def centerLoop (keyword : String) (threshold : ℚ) :
    Nat → List Frequencies → ℚ × ℚ → ℚ × ℚ
  | _, [], sides => sides
  | i, vec :: rest, sides =>
    centerLoop keyword threshold (i + 1) rest (centerStep keyword threshold i vec sides)

/-- The pair `(lowerSide, upperSide)` after the loop; both variables start at the zero
value. -/
def centerSides (vecs : List Frequencies) (keyword : String) (threshold : ℚ) : ℚ × ℚ :=
  centerLoop keyword threshold 0 vecs (0, 0)

/-- The value assigned to `node.Threshold`: `(lowerSide + upperSide) / 2`. -/
def centeredThreshold (vecs : List Frequencies) (keyword : String) (threshold : ℚ) : ℚ :=
  ((centerSides vecs keyword threshold).1 + (centerSides vecs keyword threshold).2) / 2

/-- The loop of `splitOnNode`, on the accumulated pair `(t, f)`. -/
def splitLoop (keyword : String) (threshold : ℚ) :
    List Frequencies → List Frequencies × List Frequencies →
      List Frequencies × List Frequencies
  | [], acc => acc
  | v :: rest, acc =>
    if v.get keyword > threshold then splitLoop keyword threshold rest (acc.1 ++ [v], acc.2)
    else splitLoop keyword threshold rest (acc.1, acc.2 ++ [v])

/-- The function `splitOnNode` of the trainer. The node is read only inside the loop, so
a nil node panics only when there is a vector to test. -/
def splitOnNode (vecs : List Frequencies) :
    ClassifierNode → Option (List Frequencies × List Frequencies)
  | .nil => if vecs = [] then some ([], []) else none
  | .node _ _ keyword threshold _ _ => some (splitLoop keyword threshold vecs ([], []))

/-- The function `centerThresholdsForNode` of the trainer, returning the updated node
(`none` when the run panics on a nil pointer). -/
def centerThresholdsForNode (vecs : List Frequencies) : ClassifierNode → Option ClassifierNode
  | .nil => none
  | .node leaf leafClassification keyword threshold falseBranch trueBranch =>
    if leaf then some (.node leaf leafClassification keyword threshold falseBranch trueBranch)
    else
      let newThreshold := centeredThreshold vecs keyword threshold
      match splitOnNode vecs
          (.node leaf leafClassification keyword newThreshold falseBranch trueBranch) with
      | none => none
      | some split =>
        match centerThresholdsForNode split.1 trueBranch with
        | none => none
        | some trueBranch1 =>
          match centerThresholdsForNode split.2 falseBranch with
          | none => none
          | some falseBranch1 =>
            some (.node leaf leafClassification keyword newThreshold falseBranch1 trueBranch1)

/-- The function `centerThresholds` of the trainer, on the classifier's `Keywords` and
`TreeRoot`; the list `f` gives the training map in the order its `range` loop
visits it. -/
def centerThresholds (Keywords : List String) (TreeRoot : ClassifierNode)
    (f : List (String × List Frequencies)) : Option ClassifierNode :=
  centerThresholdsForNode
    ((f.map (fun entry =>
      entry.2.map (fun wordMap => normalizeKeywords wordMap Keywords))).flatten)
    TreeRoot

/-- A tree the conversion can produce: no nil pointer is reached, that is, every node
that is not flagged as a leaf has two well-formed children. -/
def ClassifierNode.WellFormed : ClassifierNode → Prop
  | .nil => False
  | .node leaf _ _ _ falseBranch trueBranch =>
    leaf = true ∨ (falseBranch.WellFormed ∧ trueBranch.WellFormed)

/-! ## The centering rule in the words of the specification

These three definitions follow the specification's text (section 4.5, steps 1 to 3),
not the code; they are what `centeredThreshold` is compared with. -/

/-- The specification's `lowerSide`: the maximum of `v[word]` over the vectors with
`v[word] <= currentThreshold`, and `currentThreshold` when there is none. -/
def specLowerSide (vecs : List Frequencies) (keyword : String) (threshold : ℚ) : ℚ :=
  match (vecs.map (fun v => v.get keyword)).filter (fun x => decide (x ≤ threshold)) with
  | [] => threshold
  | x :: xs => xs.foldl max x

/-- The specification's `upperSide`: the minimum of `v[word]` over the vectors with
`v[word] > currentThreshold`, and `currentThreshold` when there is none. -/
def specUpperSide (vecs : List Frequencies) (keyword : String) (threshold : ℚ) : ℚ :=
  match (vecs.map (fun v => v.get keyword)).filter (fun x => decide (x > threshold)) with
  | [] => threshold
  | x :: xs => xs.foldl min x

/-- The specification's new threshold: `(lowerSide + upperSide) / 2`. -/
def specCenteredThreshold (vecs : List Frequencies) (keyword : String) (threshold : ℚ) : ℚ :=
  (specLowerSide vecs keyword threshold + specUpperSide vecs keyword threshold) / 2

/-! ## Sample data -/

/-- Two normalized training vectors over the vocabulary `func`, `class`. -/
def sampleVecs : List Frequencies :=
  [[("func", 2 / 5), ("class", 3 / 5)], [("func", 4 / 5), ("class", 1 / 5)]]

/-- A classifier tree with one branch, on `func` at `threshold`, and two leaves. -/
def sampleTree (threshold : ℚ) : ClassifierNode :=
  .node false "" "func" threshold (.node true "B" "" 0 .nil .nil) (.node true "A" "" 0 .nil .nil)

/-! ## Shapes, leaves and the frame of centering -/

/-- The shape of a tree: an absent (nil) node, a leaf, or a branch with its false side and
its true side. -/
inductive Shape where
  | absent : Shape
  | leaf : Shape
  | branch (falseSide : Shape) (trueSide : Shape) : Shape
  deriving DecidableEq, Repr

/-- The shape of an induced tree: a node without a branch field is a leaf. -/
def TreeNode.shape : TreeNode → Shape
  | .nil => .absent
  | .node none _ _ _ => .leaf
  | .node (some _) _ branchFalse branchTrue => .branch branchFalse.shape branchTrue.shape

/-- The shape of a classifier tree: a node flagged `Leaf` is a leaf. -/
def ClassifierNode.shape : ClassifierNode → Shape
  | .nil => .absent
  | .node true _ _ _ _ _ => .leaf
  | .node false _ _ _ falseBranch trueBranch => .branch falseBranch.shape trueBranch.shape

/-- A strict binary classifier tree: every node is a leaf without children or a branch
with two children that are strict binary trees. -/
def ClassifierNode.StrictBinary : ClassifierNode → Prop
  | .nil => False
  | .node leaf _ _ _ falseBranch trueBranch =>
    (leaf = true ∧ falseBranch = .nil ∧ trueBranch = .nil) ∨
    (leaf = false ∧ falseBranch.StrictBinary ∧ trueBranch.StrictBinary)

/-- The class values of the leaves of an induced tree, false side first. -/
def TreeNode.leafValues : TreeNode → List (Option String)
  | .nil => []
  | .node none leafValue _ _ => [leafValue]
  | .node (some _) _ branchFalse branchTrue => branchFalse.leafValues ++ branchTrue.leafValues

/-- The labels of the leaves of a classifier tree, false side first. -/
def ClassifierNode.leafLabels : ClassifierNode → List String
  | .nil => []
  | .node true leafClassification _ _ _ _ => [leafClassification]
  | .node false _ _ _ falseBranch trueBranch => falseBranch.leafLabels ++ trueBranch.leafLabels

/-- The tree with the threshold of every branch reached from the root set to `0`; leaves
are kept whole. Two trees with the same image differ in branch thresholds only. -/
def ClassifierNode.eraseThresholds : ClassifierNode → ClassifierNode
  | .nil => .nil
  | .node true leafClassification keyword threshold falseBranch trueBranch =>
    .node true leafClassification keyword threshold falseBranch trueBranch
  | .node false leafClassification keyword _ falseBranch trueBranch =>
    .node false leafClassification keyword 0 falseBranch.eraseThresholds
      trueBranch.eraseThresholds

/-- An induced tree with one branch, labelled `label`, over a leaf of class `B` (false
outcome) and a leaf of class `A` (true outcome). -/
def sampleInduced (label : String) : TreeNode :=
  .node (some label) none (.node none (some "B") .nil .nil) (.node none (some "A") .nil .nil)

/-! ## The feature label: format and parse -/

/-- The decimal digit character of `d < 10`. -/
def digitChar (d : ℕ) : Char := Char.ofNat (48 + d)

/-- The value of a decimal digit character. -/
def digitValue (c : Char) : Option ℕ :=
  if 48 ≤ c.toNat ∧ c.toNat ≤ 57 then some (c.toNat - 48) else none

/-- The decimal digits of `n`, most significant first, in front of `acc`. -/
def natDigitsAux : ℕ → ℕ → List Char → List Char
  | 0, _, acc => acc
  | fuel + 1, n, acc =>
    if n < 10 then digitChar n :: acc
    else natDigitsAux fuel (n / 10) (digitChar (n % 10) :: acc)

/-- The decimal numeral of `n`. -/
def natDigits (n : ℕ) : List Char := natDigitsAux (n + 1) n []

/-- The six decimal digits of `m < 10 ^ 6`, with leading zeros. -/
def fracDigits (m : ℕ) : List Char :=
  [digitChar (m / 100000 % 10), digitChar (m / 10000 % 10), digitChar (m / 1000 % 10),
    digitChar (m / 100 % 10), digitChar (m / 10 % 10), digitChar (m % 10)]

/-- Rounding of `x ≥ 0` to the nearest natural number, ties to even. -/
def roundHalfEven (x : ℚ) : ℕ :=
  if x - Int.toNat ⌊x⌋ < 1 / 2 then Int.toNat ⌊x⌋
  else if 1 / 2 < x - Int.toNat ⌊x⌋ then Int.toNat ⌊x⌋ + 1
  else if Int.toNat ⌊x⌋ % 2 = 0 then Int.toNat ⌊x⌋ else Int.toNat ⌊x⌋ + 1

/-- The verb `%f` of Go's `fmt` (standard library, outside the repository), in exact
arithmetic: a sign for a negative value, the integer part, a point and six decimals,
rounded to nearest with ties to even. -/
def formatFloat (t : ℚ) : String :=
  String.mk ((if t < 0 then ['-'] else []) ++
    natDigits (roundHalfEven (|t| * 1000000) / 1000000) ++
    '.' :: fracDigits (roundHalfEven (|t| * 1000000) % 1000000))

/-- The label printed from the format `strings.Replace(word, "%", "%%", -1) + " > %f"` of
`GenerateClassifier` for `threshold`: the doubled percent signs print as single ones, so
the word is printed as it stands, followed by ` > ` and the threshold under `%f`. -/
def canonicalLabel (word : String) (threshold : ℚ) : String :=
  word ++ " > " ++ formatFloat threshold

/-- Reading a run of decimal digits onto the value `acc`. -/
def parseDigitsAux : ℕ → List Char → Option ℕ
  | acc, [] => some acc
  | acc, c :: cs =>
    match digitValue c with
    | none => none
    | some d => parseDigitsAux (acc * 10 + d) cs

/-- A leading sign taken off: whether it was `-`, and the rest. -/
def stripSign : List Char → Bool × List Char
  | [] => (false, [])
  | c :: cs => if c = '-' then (true, cs) else if c = '+' then (false, cs) else (false, c :: cs)

/-- The value kept from `strconv.ParseFloat(s, 64)` (standard library, outside the
repository) on plain decimal literals, in exact arithmetic: an optional sign, digits and
an optional point with digits. A malformed literal gives `0`, the value the call returns
beside the error, which the trainer discards. Exponents, hexadecimal literals, infinities
and NaN are not covered. -/
def parseFloat (s : String) : ℚ :=
  let signed := stripSign s.data
  let value : ℚ :=
    match splitChars '.' signed.2 with
    | [ip] =>
      match parseDigitsAux 0 ip with
      | some a => (a : ℚ)
      | none => 0
    | [ip, fp] =>
      match parseDigitsAux 0 ip, parseDigitsAux 0 fp with
      | some a, some b => (a : ℚ) + (b : ℚ) / (10 : ℚ) ^ fp.length
      | _, _ => 0
    | _ => 0
  if signed.1 then -value else value

/-! ## The vocabulary of GenerateClassifier -/

/-- The write `words[word] = true` on the key set of the map `words`. -/
def insertWord (words : List String) (word : String) : List String :=
  if word ∈ words then words else words ++ [word]

/-- The loop `for word := range wordMap` of `GenerateClassifier`. -/
def insertWords (words : List String) (wordMap : Frequencies) : List String :=
  wordMap.keys.foldl insertWord words

/-- The loop `for _, wordMap := range list` of `GenerateClassifier`. -/
def collectSamples (words : List String) (list : List Frequencies) : List String :=
  list.foldl insertWords words

/-- The key set of `words` after the first loop nest of `GenerateClassifier`. -/
def collectWords (freqs : List (String × List Frequencies)) : List String :=
  freqs.foldl (fun words entry => collectSamples words entry.2) []

/-- The sequences `res.Keywords` can be after `for word := range words`: Go leaves the
order of a range over a map unspecified, so every listing of the key set is possible. -/
def IsKeywords (freqs : List (String × List Frequencies)) (keywords : List String) : Prop :=
  keywords.Perm (collectWords freqs)

/-- A training input with one label and one sample, of two words. -/
def sampleFreqs : List (String × List Frequencies) :=
  [("go", [[("func", 3), ("if", 1)]])]

/-! ## Finite maps: reads after writes -/

theorem Frequencies.get_set_self (f : Frequencies) (word : String) (x : ℚ) :
    (f.set word x).get word = x := by
  induction f with
  | nil => simp [Frequencies.set, Frequencies.get]
  | cons p rest ih =>
    obtain ⟨k, y⟩ := p
    by_cases h : k = word
    · simp [Frequencies.set, Frequencies.get, h]
    · simp [Frequencies.set, Frequencies.get, h, ih]

theorem Frequencies.get_set_other (f : Frequencies) (word other : String) (x : ℚ)
    (hne : word ≠ other) : (f.set word x).get other = f.get other := by
  induction f with
  | nil => simp [Frequencies.set, Frequencies.get, hne]
  | cons p rest ih =>
    obtain ⟨k, y⟩ := p
    by_cases h : k = word
    · subst h
      simp [Frequencies.set, Frequencies.get, hne]
    · by_cases h2 : k = other
      · subst h2
        simp [Frequencies.set, Frequencies.get, h]
      · simp [Frequencies.set, Frequencies.get, h, h2, ih]

theorem Frequencies.mem_keys_set (f : Frequencies) (word other : String) (x : ℚ) :
    other ∈ (f.set word x).keys ↔ other = word ∨ other ∈ f.keys := by
  induction f with
  | nil => simp [Frequencies.set, Frequencies.keys]
  | cons p rest ih =>
    obtain ⟨k, y⟩ := p
    by_cases h : k = word
    · subst h
      simp [Frequencies.set, Frequencies.keys]
    · simp only [Frequencies.keys] at ih
      simp only [Frequencies.set, Frequencies.keys, h, if_false, List.map_cons, List.mem_cons, ih]
      tauto

theorem Frequencies.nodup_keys_set (f : Frequencies) (word : String) (x : ℚ)
    (hf : f.keys.Nodup) : (f.set word x).keys.Nodup := by
  induction f with
  | nil => simp [Frequencies.set, Frequencies.keys]
  | cons p rest ih =>
    obtain ⟨k, y⟩ := p
    have hk : k ∉ Frequencies.keys rest ∧ (Frequencies.keys rest).Nodup := by
      simpa [Frequencies.keys] using hf
    by_cases h : k = word
    · subst h
      simpa [Frequencies.set, Frequencies.keys] using hf
    · have hmem := Frequencies.mem_keys_set rest word k x
      have : k ∉ (Frequencies.set rest word x).keys := by
        rw [hmem]; tauto
      have ih1 := ih hk.2
      simp only [Frequencies.keys] at this ih1
      simp [Frequencies.set, Frequencies.keys, h, this, ih1]

theorem get_writeAll (g : String → ℚ) (k : List String) (acc : Frequencies) (word : String) :
    (writeAll g k acc).get word = if word ∈ k then g word else acc.get word := by
  induction k generalizing acc with
  | nil => simp [writeAll]
  | cons w rest ih =>
    have := ih (acc.set w (g w))
    simp only [writeAll, List.foldl_cons] at this ⊢
    rw [this]
    by_cases h1 : word ∈ rest
    · simp [h1]
    · by_cases h2 : word = w
      · subst h2
        simp [h1, Frequencies.get_set_self]
      · have h3 : w ≠ word := fun e => h2 e.symm
        simp [h1, h2, Frequencies.get_set_other _ _ _ _ h3]

theorem mem_keys_writeAll (g : String → ℚ) (k : List String) (acc : Frequencies)
    (word : String) : word ∈ (writeAll g k acc).keys ↔ word ∈ k ∨ word ∈ acc.keys := by
  induction k generalizing acc with
  | nil => simp [writeAll]
  | cons w rest ih =>
    have := ih (acc.set w (g w))
    simp only [writeAll, List.foldl_cons] at this ⊢
    rw [this, Frequencies.mem_keys_set]
    simp only [List.mem_cons]
    tauto

theorem nodup_keys_writeAll (g : String → ℚ) (k : List String) (acc : Frequencies)
    (hacc : acc.keys.Nodup) : (writeAll g k acc).keys.Nodup := by
  induction k generalizing acc with
  | nil => simpa [writeAll] using hacc
  | cons w rest ih =>
    have := ih (acc.set w (g w)) (Frequencies.nodup_keys_set acc w (g w) hacc)
    simpa only [writeAll, List.foldl_cons] using this

theorem normalizeKeywords_eq_writeAll (f : Frequencies) (k : List String) :
    normalizeKeywords f k = writeAll (fun word => f.get word * scaler f k) k [] := rfl

theorem foldl_add_eq_sum (g : String → ℚ) (k : List String) (s : ℚ) :
    k.foldl (fun s word => s + g word) s = s + (k.map g).sum := by
  induction k generalizing s with
  | nil => simp
  | cons w rest ih => simp [ih, add_assoc]

theorem totalSum_eq_sum (f : Frequencies) (k : List String) :
    totalSum f k = (k.map (fun word => f.get word)).sum := by
  simp [totalSum, foldl_add_eq_sum]

theorem get_normalizeKeywords (f : Frequencies) (k : List String) (word : String)
    (hw : word ∈ k) : (normalizeKeywords f k).get word = f.get word * scaler f k := by
  rw [normalizeKeywords_eq_writeAll, get_writeAll]
  simp [hw]

theorem mem_keys_normalizeKeywords (f : Frequencies) (k : List String) (word : String) :
    word ∈ (normalizeKeywords f k).keys ↔ word ∈ k := by
  rw [normalizeKeywords_eq_writeAll, mem_keys_writeAll]
  simp [Frequencies.keys]

theorem sum_map_congr (g h : String → ℚ) (k : List String) (hgh : ∀ w ∈ k, g w = h w) :
    (k.map g).sum = (k.map h).sum := by
  induction k with
  | nil => simp
  | cons w rest ih =>
    simp only [List.map_cons, List.sum_cons]
    rw [hgh w (by simp), ih (fun v hv => hgh v (by simp [hv]))]

theorem sum_map_mul_right (g : String → ℚ) (c : ℚ) (k : List String) :
    (k.map (fun w => g w * c)).sum = (k.map g).sum * c := by
  induction k with
  | nil => simp
  | cons w rest ih => simp [ih, add_mul]

theorem scaler_of_total_ne_zero (f : Frequencies) (k : List String)
    (h : (k.map (fun word => f.get word)).sum ≠ 0) :
    scaler f k = 1 / (k.map (fun word => f.get word)).sum := by
  simp [scaler, totalSum_eq_sum, h]

theorem scaler_of_total_eq_zero (f : Frequencies) (k : List String)
    (h : (k.map (fun word => f.get word)).sum = 0) : scaler f k = 1 := by
  simp [scaler, totalSum_eq_sum, h]

theorem eq_zero_of_nonneg_of_sum_eq_zero (g : String → ℚ) (k : List String)
    (hnonneg : ∀ w ∈ k, 0 ≤ g w) (hsum : (k.map g).sum = 0) : ∀ w ∈ k, g w = 0 := by
  induction k with
  | nil => simp
  | cons v rest ih =>
    have hv : 0 ≤ g v := hnonneg v (by simp)
    have hrest : ∀ w ∈ rest, 0 ≤ g w := fun w hw => hnonneg w (by simp [hw])
    have hrsum : 0 ≤ (rest.map g).sum :=
      List.sum_nonneg (by
        intro x hx
        obtain ⟨w, hw, rfl⟩ := List.mem_map.1 hx
        exact hrest w hw)
    simp only [List.map_cons, List.sum_cons] at hsum
    have h1 : g v = 0 := by linarith
    have h2 : (rest.map g).sum = 0 := by linarith
    intro w hw
    rcases List.mem_cons.1 hw with rfl | hw
    · exact h1
    · exact ih hrest h2 w hw

/-! ## The centering loop and the split -/

theorem centerLoop_snd_of_none_above (keyword : String) (threshold : ℚ)
    (vecs : List Frequencies) (i : Nat) (sides : ℚ × ℚ)
    (h : ∀ v ∈ vecs, ¬ Frequencies.get v keyword > threshold) :
    (centerLoop keyword threshold i vecs sides).2 = sides.2 := by
  induction vecs generalizing i sides with
  | nil => simp [centerLoop]
  | cons v rest ih =>
    have hv : Frequencies.get v keyword ≤ threshold := not_lt.1 (h v (by simp))
    rw [centerLoop, ih (i + 1) _ (fun w hw => h w (by simp [hw]))]
    simp only [centerStep, hv, if_true]
    split <;> rfl

theorem centerLoop_fst_of_none_below (keyword : String) (threshold : ℚ)
    (vecs : List Frequencies) (i : Nat) (sides : ℚ × ℚ)
    (h : ∀ v ∈ vecs, ¬ Frequencies.get v keyword ≤ threshold) :
    (centerLoop keyword threshold i vecs sides).1 = sides.1 := by
  induction vecs generalizing i sides with
  | nil => simp [centerLoop]
  | cons v rest ih =>
    have hv : ¬ Frequencies.get v keyword ≤ threshold := h v (by simp)
    rw [centerLoop, ih (i + 1) _ (fun w hw => h w (by simp [hw]))]
    simp only [centerStep, hv, if_false]
    split <;> rfl

theorem splitLoop_eq_filter (keyword : String) (threshold : ℚ) (vecs : List Frequencies)
    (acc : List Frequencies × List Frequencies) :
    splitLoop keyword threshold vecs acc =
      (acc.1 ++ vecs.filter (fun v => decide (v.get keyword > threshold)),
        acc.2 ++ vecs.filter (fun v => !decide (v.get keyword > threshold))) := by
  induction vecs generalizing acc with
  | nil => simp [splitLoop]
  | cons v rest ih =>
    by_cases hv : Frequencies.get v keyword > threshold
    · simp [splitLoop, hv, ih]
    · simp [splitLoop, hv, ih]

theorem centerThresholdsForNode_total (node : ClassifierNode) (hwf : node.WellFormed)
    (vecs : List Frequencies) : ∃ node1, centerThresholdsForNode vecs node = some node1 := by
  induction node generalizing vecs with
  | nil => exact absurd hwf (by simp [ClassifierNode.WellFormed])
  | node leaf leafClassification keyword threshold falseBranch trueBranch ihF ihT =>
    cases leaf with
    | true => simp [centerThresholdsForNode]
    | false =>
      have hch : falseBranch.WellFormed ∧ trueBranch.WellFormed := by
        simpa [ClassifierNode.WellFormed] using hwf
      obtain ⟨t1, ht1⟩ := ihT hch.2
        (splitLoop keyword (centeredThreshold vecs keyword threshold) vecs ([], [])).1
      obtain ⟨f1, hf1⟩ := ihF hch.1
        (splitLoop keyword (centeredThreshold vecs keyword threshold) vecs ([], [])).2
      simp [centerThresholdsForNode, splitOnNode, ht1, hf1]

theorem writeAll_congr (g h : String → ℚ) (k : List String) (acc : Frequencies)
    (hgh : ∀ w ∈ k, g w = h w) : writeAll g k acc = writeAll h k acc := by
  induction k generalizing acc with
  | nil => rfl
  | cons w rest ih =>
    simp only [writeAll, List.foldl_cons]
    rw [hgh w (by simp)]
    exact ih _ (fun v hv => hgh v (by simp [hv]))

theorem scaler_normalizeKeywords (f : Frequencies) (k : List String) :
    scaler (normalizeKeywords f k) k = 1 := by
  have hsum : (k.map (fun word => (normalizeKeywords f k).get word)).sum =
      (k.map (fun word => f.get word)).sum * scaler f k := by
    rw [sum_map_congr _ (fun word => f.get word * scaler f k) k
      (fun w hw => get_normalizeKeywords f k w hw)]
    exact sum_map_mul_right (fun word => f.get word) (scaler f k) k
  by_cases h0 : (k.map (fun word => f.get word)).sum = 0
  · apply scaler_of_total_eq_zero
    rw [hsum, h0, zero_mul]
  · have h1 : (k.map (fun word => (normalizeKeywords f k).get word)).sum = 1 := by
      rw [hsum, scaler_of_total_ne_zero f k h0]
      field_simp
    rw [scaler_of_total_ne_zero _ k (by rw [h1]; norm_num), h1]
    norm_num

theorem centerLoop_fst_mem (keyword : String) (threshold : ℚ) (vecs : List Frequencies)
    (i : Nat) (sides : ℚ × ℚ) (h : sides.1 = 0 ∨ sides.1 = threshold) :
    (centerLoop keyword threshold i vecs sides).1 = 0 ∨
      (centerLoop keyword threshold i vecs sides).1 = threshold := by
  induction vecs generalizing i sides with
  | nil => simpa [centerLoop] using h
  | cons v rest ih =>
    rw [centerLoop]
    apply ih
    unfold centerStep
    split
    · split
      · exact Or.inr rfl
      · exact h
    · split
      · exact h
      · exact h

theorem centerLoop_snd_mem (keyword : String) (threshold : ℚ) (vecs : List Frequencies)
    (i : Nat) (sides : ℚ × ℚ) (h : sides.2 = 0 ∨ sides.2 = threshold) :
    (centerLoop keyword threshold i vecs sides).2 = 0 ∨
      (centerLoop keyword threshold i vecs sides).2 = threshold := by
  induction vecs generalizing i sides with
  | nil => simpa [centerLoop] using h
  | cons v rest ih =>
    rw [centerLoop]
    apply ih
    unfold centerStep
    split
    · split
      · exact h
      · exact h
    · split
      · exact Or.inr rfl
      · exact h

theorem centeredThreshold_mem (vecs : List Frequencies) (keyword : String) (threshold : ℚ) :
    centeredThreshold vecs keyword threshold = 0 ∨
      centeredThreshold vecs keyword threshold = threshold / 2 ∨
      centeredThreshold vecs keyword threshold = threshold := by
  have h1 := centerLoop_fst_mem keyword threshold vecs 0 (0, 0) (Or.inl rfl)
  have h2 := centerLoop_snd_mem keyword threshold vecs 0 (0, 0) (Or.inl rfl)
  unfold centeredThreshold centerSides
  rcases h1 with h1 | h1 <;> rcases h2 with h2 | h2 <;> rw [h1, h2]
  · left; norm_num
  · right; left; ring
  · right; left; ring
  · right; right; ring

theorem centerThresholdsForNode_branch_eq (vecs : List Frequencies)
    (leafClassification keyword : String) (threshold : ℚ)
    (falseBranch trueBranch node1 : ClassifierNode)
    (h : centerThresholdsForNode vecs
      (.node false leafClassification keyword threshold falseBranch trueBranch) = some node1) :
    ∃ (parts : List Frequencies × List Frequencies) (falseBranch1 trueBranch1 : ClassifierNode),
      centerThresholdsForNode parts.1 trueBranch = some trueBranch1 ∧
      centerThresholdsForNode parts.2 falseBranch = some falseBranch1 ∧
      node1 = .node false leafClassification keyword
        (centeredThreshold vecs keyword threshold) falseBranch1 trueBranch1 := by
  simp only [centerThresholdsForNode, splitOnNode] at h
  cases ht : centerThresholdsForNode
      (splitLoop keyword (centeredThreshold vecs keyword threshold) vecs ([], [])).1
      trueBranch with
  | none => simp [ht] at h
  | some t1 =>
    cases hf : centerThresholdsForNode
        (splitLoop keyword (centeredThreshold vecs keyword threshold) vecs ([], [])).2
        falseBranch with
    | none => simp [ht, hf] at h
    | some f1 =>
      simp [ht, hf] at h
      exact ⟨_, f1, t1, ht, hf, h.symm⟩

theorem eraseThresholds_centerThresholdsForNode (node : ClassifierNode) :
    ∀ (vecs : List Frequencies) (node1 : ClassifierNode),
      centerThresholdsForNode vecs node = some node1 →
        node1.eraseThresholds = node.eraseThresholds := by
  induction node with
  | nil =>
    intro vecs node1 h
    simp [centerThresholdsForNode] at h
  | node leaf leafClassification keyword threshold falseBranch trueBranch ihF ihT =>
    intro vecs node1 h
    cases leaf with
    | true =>
      simp [centerThresholdsForNode] at h
      rw [← h]
    | false =>
      obtain ⟨parts, f1, t1, ht, hf, rfl⟩ :=
        centerThresholdsForNode_branch_eq vecs leafClassification keyword threshold
          falseBranch trueBranch node1 h
      simp [ClassifierNode.eraseThresholds, ihF _ _ hf, ihT _ _ ht]

/-! ## convertTree, case by case -/

theorem convertTree_branch_of_split (ParseFloat : String → ℚ) (label c0 c1 c2 : String)
    (leafValue : Option String) (branchFalse branchTrue : TreeNode)
    (hsplit : stringsSplit label = [c0, c1, c2]) :
    convertTree ParseFloat (.node (some label) leafValue branchFalse branchTrue) =
      (convertTree ParseFloat branchFalse).bind (fun falseBranch =>
        (convertTree ParseFloat branchTrue).map (fun trueBranch =>
          .node false "" c0 (ParseFloat c2) falseBranch trueBranch)) := by
  simp only [convertTree, hsplit]
  cases convertTree ParseFloat branchFalse with
  | none => rfl
  | some fb =>
    cases convertTree ParseFloat branchTrue with
    | none => rfl
    | some tb => rfl

theorem convertTree_branch_of_not_split (ParseFloat : String → ℚ) (label : String)
    (leafValue : Option String) (branchFalse branchTrue : TreeNode)
    (hsplit : (stringsSplit label).length ≠ 3) :
    convertTree ParseFloat (.node (some label) leafValue branchFalse branchTrue) = none := by
  simp only [convertTree]
  split
  · next c0 c1 c2 heq =>
    rw [heq] at hsplit
    simp at hsplit
  · rfl

theorem convertTree_branch_eq (ParseFloat : String → ℚ) (label : String)
    (leafValue : Option String) (branchFalse branchTrue : TreeNode) (node : ClassifierNode)
    (h : convertTree ParseFloat (.node (some label) leafValue branchFalse branchTrue) =
      some node) :
    ∃ (c0 c1 c2 : String) (falseBranch trueBranch : ClassifierNode),
      stringsSplit label = [c0, c1, c2] ∧
      convertTree ParseFloat branchFalse = some falseBranch ∧
      convertTree ParseFloat branchTrue = some trueBranch ∧
      node = .node false "" c0 (ParseFloat c2) falseBranch trueBranch := by
  by_cases hlen : (stringsSplit label).length = 3
  · obtain ⟨c0, c1, c2, hs⟩ := List.length_eq_three.1 hlen
    rw [convertTree_branch_of_split ParseFloat label c0 c1 c2 _ _ _ hs] at h
    cases hf : convertTree ParseFloat branchFalse with
    | none => simp [hf] at h
    | some fb =>
      cases ht : convertTree ParseFloat branchTrue with
      | none => simp [hf, ht] at h
      | some tb =>
        simp [hf, ht] at h
        exact ⟨c0, c1, c2, fb, tb, hs, rfl, rfl, h.symm⟩
  · rw [convertTree_branch_of_not_split ParseFloat label _ _ _ hlen] at h
    exact absurd h (by simp)

theorem convertTree_leafLabels (ParseFloat : String → ℚ) (t : TreeNode) :
    ∀ node, convertTree ParseFloat t = some node →
      node.leafLabels = t.leafValues.map (fun v => v.getD "Unknown") := by
  induction t with
  | nil =>
    intro node h
    simp [convertTree] at h
  | node branchField leafValue branchFalse branchTrue ihF ihT =>
    intro node h
    cases branchField with
    | none =>
      cases leafValue with
      | none =>
        simp [convertTree] at h
        rw [← h]
        rfl
      | some v =>
        simp [convertTree] at h
        rw [← h]
        rfl
    | some label =>
      obtain ⟨c0, c1, c2, fb, tb, _, hf, ht, rfl⟩ :=
        convertTree_branch_eq ParseFloat label leafValue branchFalse branchTrue node h
      simp [ClassifierNode.leafLabels, TreeNode.leafValues, ihF fb hf, ihT tb ht]

theorem convertTree_shape (ParseFloat : String → ℚ) (t : TreeNode) :
    ∀ node, convertTree ParseFloat t = some node →
      node.shape = t.shape ∧ node.StrictBinary := by
  induction t with
  | nil =>
    intro node h
    simp [convertTree] at h
  | node branchField leafValue branchFalse branchTrue ihF ihT =>
    intro node h
    cases branchField with
    | none =>
      cases leafValue with
      | none =>
        simp [convertTree] at h
        rw [← h]
        simp [ClassifierNode.shape, TreeNode.shape, ClassifierNode.StrictBinary]
      | some v =>
        simp [convertTree] at h
        rw [← h]
        simp [ClassifierNode.shape, TreeNode.shape, ClassifierNode.StrictBinary]
    | some label =>
      obtain ⟨c0, c1, c2, fb, tb, _, hf, ht, rfl⟩ :=
        convertTree_branch_eq ParseFloat label leafValue branchFalse branchTrue node h
      simp [ClassifierNode.shape, TreeNode.shape, ClassifierNode.StrictBinary,
        (ihF fb hf).1, (ihT tb ht).1, (ihF fb hf).2, (ihT tb ht).2]

/-! ## The code on the sample data -/

theorem centerThresholdsForNode_sample_half :
    centerThresholdsForNode sampleVecs (sampleTree (1 / 2)) = some (sampleTree (1 / 4)) := by
  norm_num +decide [centerThresholdsForNode, sampleTree, sampleVecs, centeredThreshold,
    centerSides, centerLoop, centerStep, splitOnNode, splitLoop, Frequencies.get]

theorem centerThresholdsForNode_sample_quarter :
    centerThresholdsForNode sampleVecs (sampleTree (1 / 4)) = some (sampleTree (1 / 8)) := by
  norm_num +decide [centerThresholdsForNode, sampleTree, sampleVecs, centeredThreshold,
    centerSides, centerLoop, centerStep, splitOnNode, splitLoop, Frequencies.get]

theorem centerThresholdsForNode_sample_reverse :
    centerThresholdsForNode sampleVecs.reverse (sampleTree (1 / 2)) =
      some (sampleTree (1 / 2)) := by
  norm_num +decide [centerThresholdsForNode, sampleTree, sampleVecs, centeredThreshold,
    centerSides, centerLoop, centerStep, splitOnNode, splitLoop, Frequencies.get]

theorem sampleTree_injective (a b : ℚ) (h : sampleTree a = sampleTree b) : a = b := by
  simpa [sampleTree] using h

/-! ## Claims on normalizeKeywords -/

/-- C7: for a duplicate-free vocabulary `k` and a raw map `f` whose total count over `k`
is positive, the values of `normalizeKeywords f k` summed over the words of `k` are
exactly `1`. -/
theorem normalizeKeywords_sum_eq_one (f : Frequencies) (k : List String) (_hk : k.Nodup)
    (hpos : 0 < (k.map (fun word => f.get word)).sum) :
    (k.map (fun word => (normalizeKeywords f k).get word)).sum = 1 := by
  have hne : (k.map (fun word => f.get word)).sum ≠ 0 := ne_of_gt hpos
  rw [sum_map_congr _ (fun word => f.get word * scaler f k) k
    (fun w hw => get_normalizeKeywords f k w hw)]
  rw [sum_map_mul_right (fun word => f.get word) (scaler f k) k,
    scaler_of_total_ne_zero f k hne]
  field_simp

theorem normalizeKeywords_sum_eq_one_witness :
    (["if", "for"] : List String).Nodup ∧
    (0 : ℚ) < ((["if", "for"] : List String).map
      (fun word => Frequencies.get [("if", 3), ("for", 1), ("x", 4)] word)).sum ∧
    ((["if", "for"] : List String).map (fun word =>
      (normalizeKeywords [("if", 3), ("for", 1), ("x", 4)] ["if", "for"]).get word)).sum = 1 :=
  ⟨by decide, by norm_num +decide [Frequencies.get],
    normalizeKeywords_sum_eq_one [("if", 3), ("for", 1), ("x", 4)] ["if", "for"]
      (by decide) (by norm_num +decide [Frequencies.get])⟩

/-- In exact arithmetic: the keys of `normalizeKeywords f k` are exactly the words of `k`
(each once), and the value at a word of `k` is `count / totalCount`, where `count` is
`f[word]` (`0` when absent) and `totalCount` is the sum of the counts over `k`, replaced by
`1` when that sum is `0`. The binary64 product `f[word] * (1 / totalSum)` of the code need
not equal this quotient. -/
theorem normalizeKeywords_keys_values (f : Frequencies) (k : List String) :
    (∀ word, word ∈ (normalizeKeywords f k).keys ↔ word ∈ k) ∧
    (normalizeKeywords f k).keys.Nodup ∧
    (∀ word, word ∈ k → (normalizeKeywords f k).get word =
      f.get word / (if (k.map (fun w => f.get w)).sum = 0 then 1
        else (k.map (fun w => f.get w)).sum)) := by
  refine ⟨?_, ?_, ?_⟩
  · exact mem_keys_normalizeKeywords f k
  · rw [normalizeKeywords_eq_writeAll]
    exact nodup_keys_writeAll _ _ _ (by simp [Frequencies.keys])
  · intro word hw
    rw [get_normalizeKeywords f k word hw, scaler, totalSum_eq_sum, mul_one_div]

theorem normalizeKeywords_keys_values_witness :
    ("x" ∉ (normalizeKeywords [("if", 3), ("for", 1), ("x", 4)] ["if", "for", "go"]).keys) ∧
    ("go" ∈ (normalizeKeywords [("if", 3), ("for", 1), ("x", 4)] ["if", "for", "go"]).keys) ∧
    (normalizeKeywords [("if", 3), ("for", 1), ("x", 4)] ["if", "for", "go"]).get "if" = 3 / 4 := by
  have h := normalizeKeywords_keys_values [("if", 3), ("for", 1), ("x", 4)] ["if", "for", "go"]
  refine ⟨?_, ?_, ?_⟩
  · rw [h.1]; decide
  · rw [h.1]; decide
  · rw [h.2.2 "if" (by decide)]
    norm_num +decide [Frequencies.get]

/-- C9: when the counts of `f` over `k` are non-negative and total `0`, the divisor used
by `normalizeKeywords` is `1` (no division by zero) and the result, whose keys are the
words of `k`, is `0` at every word. -/
theorem normalizeKeywords_zero_total (f : Frequencies) (k : List String)
    (hnonneg : ∀ word ∈ k, 0 ≤ f.get word)
    (hzero : (k.map (fun word => f.get word)).sum = 0) :
    scaler f k = 1 ∧
    (∀ word, word ∈ (normalizeKeywords f k).keys ↔ word ∈ k) ∧
    (∀ word, (normalizeKeywords f k).get word = 0) := by
  refine ⟨scaler_of_total_eq_zero f k hzero, mem_keys_normalizeKeywords f k, ?_⟩
  intro word
  rw [normalizeKeywords_eq_writeAll, get_writeAll]
  by_cases hw : word ∈ k
  · have := eq_zero_of_nonneg_of_sum_eq_zero (fun w => f.get w) k hnonneg hzero word hw
    simp only at this
    simp [hw, this]
  · simp [hw, Frequencies.get]

theorem normalizeKeywords_zero_total_witness :
    scaler [("if", 0), ("x", 7)] ["if", "for"] = 1 ∧
    (∀ word, word ∈ (normalizeKeywords [("if", 0), ("x", 7)] ["if", "for"]).keys ↔
      word ∈ ["if", "for"]) ∧
    (∀ word, (normalizeKeywords [("if", 0), ("x", 7)] ["if", "for"]).get word = 0) :=
  normalizeKeywords_zero_total [("if", 0), ("x", 7)] ["if", "for"]
    (by intro word hw; simp at hw; rcases hw with rfl | rfl <;> norm_num +decide [Frequencies.get])
    (by norm_num +decide [Frequencies.get])

/-! ## Claims on convertTree -/

/-- C10: on an induced leaf (no branch field) `convertTree` returns a classifier leaf
(`Leaf = true`, both children nil) whose label is the string of the class value when
there is one and `"Unknown"` when there is none. -/
theorem convertTree_leaf (ParseFloat : String → ℚ) (branchFalse branchTrue : TreeNode) :
    (∀ leafValue : String,
      convertTree ParseFloat (.node none (some leafValue) branchFalse branchTrue) =
        some (.node true leafValue "" 0 .nil .nil)) ∧
    convertTree ParseFloat (.node none none branchFalse branchTrue) =
      some (.node true "Unknown" "" 0 .nil .nil) := by
  constructor
  · intro leafValue
    simp [convertTree]
  · simp [convertTree]

/-! ## Claims on threshold centering -/

/-- C1 (the code departs from the claim): on the two sample vectors, with values `2/5`
and `4/5` of `func` around the threshold `1/2`, `centerThresholdsForNode` stores `1/4`,
while the midpoint of the largest value below and the smallest value above is `3/5`. -/
theorem centerThresholdsForNode_not_midpoint :
    centerThresholdsForNode sampleVecs (sampleTree (1 / 2)) = some (sampleTree (1 / 4)) ∧
    specLowerSide sampleVecs "func" (1 / 2) = 2 / 5 ∧
    specUpperSide sampleVecs "func" (1 / 2) = 4 / 5 ∧
    specCenteredThreshold sampleVecs "func" (1 / 2) = 3 / 5 := by
  refine ⟨centerThresholdsForNode_sample_half, ?_, ?_, ?_⟩
  · norm_num +decide [specLowerSide, sampleVecs, Frequencies.get]
  · norm_num +decide [specUpperSide, sampleVecs, Frequencies.get]
  · norm_num +decide [specCenteredThreshold, specLowerSide, specUpperSide, sampleVecs,
      Frequencies.get]

/-- C2 (the code departs from the claim): the sample vectors have a value of `func` on
each side of the threshold `1/2` (`2/5` below, `4/5` above), and the threshold stored by
`centerThresholdsForNode`, `1/4`, is not above the largest value of the false side. -/
theorem centerThresholdsForNode_not_between :
    (∃ v ∈ sampleVecs, Frequencies.get v "func" ≤ 1 / 2) ∧
    (∃ v ∈ sampleVecs, Frequencies.get v "func" > 1 / 2) ∧
    centeredThreshold sampleVecs "func" (1 / 2) = 1 / 4 ∧
    ¬ (specLowerSide sampleVecs "func" (1 / 2) < centeredThreshold sampleVecs "func" (1 / 2) ∧
      centeredThreshold sampleVecs "func" (1 / 2) < specUpperSide sampleVecs "func" (1 / 2)) := by
  have hc : centeredThreshold sampleVecs "func" (1 / 2) = 1 / 4 := by
    norm_num +decide [sampleVecs, centeredThreshold, centerSides, centerLoop, centerStep,
      Frequencies.get]
  have hl : specLowerSide sampleVecs "func" (1 / 2) = 2 / 5 := by
    norm_num +decide [specLowerSide, sampleVecs, Frequencies.get]
  refine ⟨⟨[("func", 2 / 5), ("class", 3 / 5)], by simp [sampleVecs], ?_⟩,
    ⟨[("func", 4 / 5), ("class", 1 / 5)], by simp [sampleVecs], ?_⟩, hc, ?_⟩
  · norm_num +decide [Frequencies.get]
  · norm_num +decide [Frequencies.get]
  · rw [hc, hl]
    norm_num

/-- C3 (as stated, refuted): with no vector at all the branch at threshold `1/2` does not
keep its threshold: `centerThresholdsForNode` stores `0`. -/
theorem centerThresholdsForNode_empty_not_fixed :
    centerThresholdsForNode [] (sampleTree (1 / 2)) = some (sampleTree 0) ∧
    centerThresholdsForNode [] (sampleTree (1 / 2)) ≠ some (sampleTree (1 / 2)) ∧
    (centerSides [] "func" (1 / 2)).1 ≠ 1 / 2 ∧ (centerSides [] "func" (1 / 2)).2 ≠ 1 / 2 := by
  have h : centerThresholdsForNode [] (sampleTree (1 / 2)) = some (sampleTree 0) := by
    simp [centerThresholdsForNode, sampleTree, centeredThreshold, centerSides, centerLoop,
      splitOnNode, splitLoop]
  refine ⟨h, ?_, ?_, ?_⟩
  · rw [h]
    intro h0
    have := sampleTree_injective _ _ (Option.some.inj h0)
    norm_num at this
  · norm_num [centerSides, centerLoop]
  · norm_num [centerSides, centerLoop]

/-- C3 (amended): degenerate centering never fails and a side without data keeps the zero
value of its variable: if no vector has `v[w] > T` the upper bound used is `0`, if no
vector has `v[w] <= T` the lower bound used is `0`, for an empty list the threshold
stored is `0`, and on every branch whose children are well-formed trees the call
returns a node. -/
theorem centerThresholdsForNode_degenerate (vecs : List Frequencies) (keyword : String)
    (threshold : ℚ) :
    ((∀ v ∈ vecs, ¬ Frequencies.get v keyword > threshold) →
      (centerSides vecs keyword threshold).2 = 0) ∧
    ((∀ v ∈ vecs, ¬ Frequencies.get v keyword ≤ threshold) →
      (centerSides vecs keyword threshold).1 = 0) ∧
    centeredThreshold [] keyword threshold = 0 ∧
    (∀ (leafClassification : String) (falseBranch trueBranch : ClassifierNode),
      falseBranch.WellFormed → trueBranch.WellFormed →
      ∃ falseBranch1 trueBranch1,
        centerThresholdsForNode vecs
            (.node false leafClassification keyword threshold falseBranch trueBranch) =
          some (.node false leafClassification keyword
            (centeredThreshold vecs keyword threshold) falseBranch1 trueBranch1)) := by
  refine ⟨?_, ?_, ?_, ?_⟩
  · intro h
    simpa [centerSides] using centerLoop_snd_of_none_above keyword threshold vecs 0 (0, 0) h
  · intro h
    simpa [centerSides] using centerLoop_fst_of_none_below keyword threshold vecs 0 (0, 0) h
  · simp [centeredThreshold, centerSides, centerLoop]
  · intro leafClassification falseBranch trueBranch hF hT
    obtain ⟨t1, ht1⟩ := centerThresholdsForNode_total trueBranch hT
      (splitLoop keyword (centeredThreshold vecs keyword threshold) vecs ([], [])).1
    obtain ⟨f1, hf1⟩ := centerThresholdsForNode_total falseBranch hF
      (splitLoop keyword (centeredThreshold vecs keyword threshold) vecs ([], [])).2
    exact ⟨f1, t1, by simp [centerThresholdsForNode, splitOnNode, ht1, hf1]⟩

theorem centerThresholdsForNode_degenerate_witness :
    (∀ v ∈ [([("func", 2 / 5), ("class", 3 / 5)] : Frequencies)],
      ¬ Frequencies.get v "func" > 1 / 2) ∧
    (centerSides [[("func", 2 / 5), ("class", 3 / 5)]] "func" (1 / 2)).2 = 0 := by
  have hnone : ∀ v ∈ [([("func", 2 / 5), ("class", 3 / 5)] : Frequencies)],
      ¬ Frequencies.get v "func" > 1 / 2 := by
    intro v hv
    rw [List.mem_singleton.1 hv]
    norm_num +decide [Frequencies.get]
  exact ⟨hnone,
    (centerThresholdsForNode_degenerate [[("func", 2 / 5), ("class", 3 / 5)]] "func" (1 / 2)).1
      hnone⟩

/-- C4 (the code departs from the claim): a second run of `centerThresholdsForNode` on the
same vectors moves the threshold again, from `1/4` to `1/8`, although the midpoint rule
of the specification is at rest after one run on this input (`3/5` stays `3/5`). -/
theorem centerThresholdsForNode_not_idempotent :
    centerThresholdsForNode sampleVecs (sampleTree (1 / 2)) = some (sampleTree (1 / 4)) ∧
    centerThresholdsForNode sampleVecs (sampleTree (1 / 4)) = some (sampleTree (1 / 8)) ∧
    (centerThresholdsForNode sampleVecs (sampleTree (1 / 2))).bind
        (centerThresholdsForNode sampleVecs) ≠
      centerThresholdsForNode sampleVecs (sampleTree (1 / 2)) ∧
    specCenteredThreshold sampleVecs "func"
        (specCenteredThreshold sampleVecs "func" (1 / 2)) =
      specCenteredThreshold sampleVecs "func" (1 / 2) := by
  refine ⟨centerThresholdsForNode_sample_half, centerThresholdsForNode_sample_quarter, ?_, ?_⟩
  swap
  · norm_num +decide [specCenteredThreshold, specLowerSide, specUpperSide, sampleVecs,
      Frequencies.get]
  rw [centerThresholdsForNode_sample_half, Option.some_bind,
    centerThresholdsForNode_sample_quarter]
  intro h
  have := sampleTree_injective _ _ (Option.some.inj h)
  norm_num at this

/-- C5 (the code departs from the claim): the sample vectors and the same two vectors
listed in the other order give different thresholds, `1/4` and `1/2`, so the two runs
of `centerThresholdsForNode` disagree. -/
theorem centerThresholdsForNode_order_dependent :
    sampleVecs.reverse.Perm sampleVecs ∧
    centerThresholdsForNode sampleVecs (sampleTree (1 / 2)) = some (sampleTree (1 / 4)) ∧
    centerThresholdsForNode sampleVecs.reverse (sampleTree (1 / 2)) =
      some (sampleTree (1 / 2)) ∧
    centerThresholdsForNode sampleVecs.reverse (sampleTree (1 / 2)) ≠
      centerThresholdsForNode sampleVecs (sampleTree (1 / 2)) := by
  refine ⟨List.reverse_perm sampleVecs, centerThresholdsForNode_sample_half,
    centerThresholdsForNode_sample_reverse, ?_⟩
  rw [centerThresholdsForNode_sample_half, centerThresholdsForNode_sample_reverse]
  intro h
  have := sampleTree_injective _ _ (Option.some.inj h)
  norm_num at this

/-- C6: `splitOnNode` returns the vectors with `v[w] > threshold` and the others, each in
the order of the input, so every vector is in exactly one of the two lists and the
lengths add up; and `centerThresholdsForNode` recurses into `TrueBranch` and
`FalseBranch` with the two lists split at the new threshold. -/
theorem splitOnNode_partition (vecs : List Frequencies) (leaf : Bool)
    (leafClassification keyword : String) (threshold : ℚ)
    (falseBranch trueBranch : ClassifierNode) :
    splitOnNode vecs (.node leaf leafClassification keyword threshold falseBranch trueBranch) =
      some (vecs.filter (fun v => decide (v.get keyword > threshold)),
        vecs.filter (fun v => !decide (v.get keyword > threshold))) ∧
    (vecs.filter (fun v => decide (v.get keyword > threshold))).length +
      (vecs.filter (fun v => !decide (v.get keyword > threshold))).length = vecs.length ∧
    (∀ v, v ∈ vecs →
      (v ∈ vecs.filter (fun v => decide (v.get keyword > threshold)) ∧
        v ∉ vecs.filter (fun v => !decide (v.get keyword > threshold))) ∨
      (v ∉ vecs.filter (fun v => decide (v.get keyword > threshold)) ∧
        v ∈ vecs.filter (fun v => !decide (v.get keyword > threshold)))) ∧
    centerThresholdsForNode vecs
        (.node false leafClassification keyword threshold falseBranch trueBranch) =
      (centerThresholdsForNode
        (vecs.filter (fun v =>
          decide (v.get keyword > centeredThreshold vecs keyword threshold))) trueBranch).bind
        (fun trueBranch1 =>
          (centerThresholdsForNode
            (vecs.filter (fun v =>
              !decide (v.get keyword > centeredThreshold vecs keyword threshold)))
            falseBranch).map
            (fun falseBranch1 =>
              .node false leafClassification keyword
                (centeredThreshold vecs keyword threshold) falseBranch1 trueBranch1)) := by
  refine ⟨?_, ?_, ?_, ?_⟩
  · simp [splitOnNode, splitLoop_eq_filter]
  · induction vecs with
    | nil => simp
    | cons v rest ih =>
      by_cases hv : Frequencies.get v keyword > threshold
      · simp [List.filter_cons, hv] at ih ⊢
        omega
      · simp [List.filter_cons, hv] at ih ⊢
        omega
  · intro v hv
    by_cases hp : Frequencies.get v keyword > threshold
    · left
      simp [List.mem_filter, hv, hp]
    · right
      simp [List.mem_filter, hv, hp]
  · simp only [centerThresholdsForNode, splitOnNode, splitLoop_eq_filter, List.nil_append]
    cases centerThresholdsForNode
      (vecs.filter (fun v =>
        decide (v.get keyword > centeredThreshold vecs keyword threshold))) trueBranch with
    | none => simp
    | some t1 =>
      cases centerThresholdsForNode
        (vecs.filter (fun v =>
          !decide (v.get keyword > centeredThreshold vecs keyword threshold))) falseBranch with
      | none => simp
      | some f1 => simp

/-! ## Further claims on normalizeKeywords -/

/-- In exact arithmetic: for non-negative counts over `k`, every value of
`normalizeKeywords f k` lies between `0` and `1`. In binary64 the bound can fail, by
overflow of `1 / totalSum` at a subnormal total. -/
theorem normalizeKeywords_values_bounded (f : Frequencies) (k : List String)
    (hnonneg : ∀ word ∈ k, 0 ≤ f.get word) :
    ∀ word, 0 ≤ (normalizeKeywords f k).get word ∧ (normalizeKeywords f k).get word ≤ 1 := by
  intro word
  rw [normalizeKeywords_eq_writeAll, get_writeAll]
  by_cases hw : word ∈ k
  · simp only [hw, if_true]
    have htot : 0 ≤ (k.map (fun w => f.get w)).sum :=
      List.sum_nonneg (by
        intro x hx
        obtain ⟨w, hw1, rfl⟩ := List.mem_map.1 hx
        exact hnonneg w hw1)
    by_cases h0 : (k.map (fun w => f.get w)).sum = 0
    · have hz := eq_zero_of_nonneg_of_sum_eq_zero (fun w => f.get w) k hnonneg h0 word hw
      simp only at hz
      rw [hz, zero_mul]
      exact ⟨le_refl 0, zero_le_one⟩
    · have hpos : 0 < (k.map (fun w => f.get w)).sum := lt_of_le_of_ne htot (Ne.symm h0)
      have hle : f.get word ≤ (k.map (fun w => f.get w)).sum :=
        List.single_le_sum (by
          intro x hx
          obtain ⟨w, hw1, rfl⟩ := List.mem_map.1 hx
          exact hnonneg w hw1) _ (List.mem_map.2 ⟨word, hw, rfl⟩)
      rw [scaler_of_total_ne_zero f k h0, mul_one_div]
      exact ⟨div_nonneg (hnonneg word hw) htot, (div_le_one hpos).2 hle⟩
  · simp [hw, Frequencies.get]

theorem normalizeKeywords_values_bounded_witness :
    (0 : ℚ) ≤ (normalizeKeywords [("if", 3), ("for", 1), ("x", 4)] ["if", "for"]).get "if" ∧
    (normalizeKeywords [("if", 3), ("for", 1), ("x", 4)] ["if", "for"]).get "if" ≤ 1 :=
  normalizeKeywords_values_bounded [("if", 3), ("for", 1), ("x", 4)] ["if", "for"]
    (by intro word hw; simp at hw; rcases hw with rfl | rfl <;>
      norm_num +decide [Frequencies.get]) "if"

/-- C20: normalizing twice over the same vocabulary gives the same vector as normalizing
once. -/
theorem normalizeKeywords_idempotent (f : Frequencies) (k : List String) :
    normalizeKeywords (normalizeKeywords f k) k = normalizeKeywords f k := by
  rw [normalizeKeywords_eq_writeAll (normalizeKeywords f k) k, normalizeKeywords_eq_writeAll f k]
  apply writeAll_congr
  intro w hw
  rw [← normalizeKeywords_eq_writeAll, scaler_normalizeKeywords, mul_one,
    get_normalizeKeywords f k w hw]

/-! ## Further claims on threshold centering -/

/-- C18: each of the two bounds averaged by one step of `centerThresholdsForNode` is `0` or
the old threshold `T`, so the threshold stored in a branch is `0`, `T / 2` or `T`. -/
theorem centeredThreshold_three_values (vecs : List Frequencies) (keyword : String)
    (threshold : ℚ) :
    ((centerSides vecs keyword threshold).1 = 0 ∨
      (centerSides vecs keyword threshold).1 = threshold) ∧
    ((centerSides vecs keyword threshold).2 = 0 ∨
      (centerSides vecs keyword threshold).2 = threshold) ∧
    (∀ (leafClassification : String) (falseBranch trueBranch node1 : ClassifierNode),
      centerThresholdsForNode vecs
        (.node false leafClassification keyword threshold falseBranch trueBranch) =
          some node1 →
      ∃ falseBranch1 trueBranch1 threshold1,
        node1 = .node false leafClassification keyword threshold1 falseBranch1 trueBranch1 ∧
        (threshold1 = 0 ∨ threshold1 = threshold / 2 ∨ threshold1 = threshold)) := by
  refine ⟨centerLoop_fst_mem keyword threshold vecs 0 (0, 0) (Or.inl rfl),
    centerLoop_snd_mem keyword threshold vecs 0 (0, 0) (Or.inl rfl), ?_⟩
  intro leafClassification falseBranch trueBranch node1 h
  obtain ⟨parts, f1, t1, _, _, rfl⟩ :=
    centerThresholdsForNode_branch_eq vecs leafClassification keyword threshold
      falseBranch trueBranch node1 h
  exact ⟨f1, t1, _, rfl, centeredThreshold_mem vecs keyword threshold⟩

theorem centeredThreshold_three_values_witness :
    ∃ falseBranch1 trueBranch1 threshold1,
      sampleTree (1 / 4) = .node false "" "func" threshold1 falseBranch1 trueBranch1 ∧
      (threshold1 = 0 ∨ threshold1 = (1 / 2 : ℚ) / 2 ∨ threshold1 = 1 / 2) :=
  (centeredThreshold_three_values sampleVecs "func" (1 / 2)).2.2 ""
    (.node true "B" "" 0 .nil .nil) (.node true "A" "" 0 .nil .nil) (sampleTree (1 / 4))
    centerThresholdsForNode_sample_half

/-- C19: `centerThresholdsForNode` changes branch thresholds only (shape, keywords, leaf
flags and leaf labels are kept), and it returns on every tree whose branches all have
two children. -/
theorem centerThresholdsForNode_frame (vecs : List Frequencies) (node : ClassifierNode) :
    (∀ node1, centerThresholdsForNode vecs node = some node1 →
      node1.eraseThresholds = node.eraseThresholds ∧ node1.shape = node.shape) ∧
    (node.WellFormed → ∃ node1, centerThresholdsForNode vecs node = some node1) := by
  refine ⟨?_, fun hwf => centerThresholdsForNode_total node hwf vecs⟩
  intro node1 h
  have he := eraseThresholds_centerThresholdsForNode node vecs node1 h
  refine ⟨he, ?_⟩
  have hshape : ∀ n : ClassifierNode, n.eraseThresholds.shape = n.shape := by
    intro n
    induction n with
    | nil => rfl
    | node leaf leafClassification keyword threshold falseBranch trueBranch ihF ihT =>
      cases leaf with
      | true => rfl
      | false => simp [ClassifierNode.eraseThresholds, ClassifierNode.shape, ihF, ihT]
  rw [← hshape node1, he, hshape node]

theorem centerThresholdsForNode_frame_witness :
    (sampleTree (1 / 4)).eraseThresholds = (sampleTree (1 / 2)).eraseThresholds ∧
    (sampleTree (1 / 4)).shape = (sampleTree (1 / 2)).shape :=
  (centerThresholdsForNode_frame sampleVecs (sampleTree (1 / 2))).1 (sampleTree (1 / 4))
    centerThresholdsForNode_sample_half

/-! ## Further claims on convertTree -/

/-- C11 (as stated, refuted): an induced leaf whose class value has the empty string
becomes a leaf with an empty label, and an induced leaf that does carry a class value,
of string `"Unknown"`, becomes a leaf labelled `"Unknown"`. -/
theorem convertTree_empty_or_unknown_label :
    convertTree (fun _ => 0) (.node none (some "") .nil .nil) =
      some (.node true "" "" 0 .nil .nil) ∧
    convertTree (fun _ => 0) (.node none (some "Unknown") .nil .nil) =
      some (.node true "Unknown" "" 0 .nil .nil) := by
  constructor <;> simp [convertTree]

/-- C11 (amended): when `convertTree` succeeds, the leaf labels of the result are, leaf by
leaf, the strings of the induced class values, with `"Unknown"` for an absent value; so
if no class value has the empty string or the string `"Unknown"`, no leaf has an empty
label and a leaf is labelled `"Unknown"` only when its induced leaf carried no class
value. -/
theorem convertTree_leaf_labels (ParseFloat : String → ℚ) (t : TreeNode)
    (node : ClassifierNode) (h : convertTree ParseFloat t = some node) :
    node.leafLabels = t.leafValues.map (fun v => v.getD "Unknown") ∧
    ((∀ v ∈ t.leafValues, v ≠ some "" ∧ v ≠ some "Unknown") →
      List.Forall₂ (fun v label => label ≠ "" ∧ (label = "Unknown" → v = none))
        t.leafValues node.leafLabels) := by
  have hl := convertTree_leafLabels ParseFloat t node h
  refine ⟨hl, ?_⟩
  intro hv
  rw [hl, List.forall₂_map_right_iff, List.forall₂_same]
  intro v hmem
  cases v with
  | none => simp
  | some x =>
    have hx := hv (some x) hmem
    constructor
    · intro hx0
      exact hx.1 (by simpa using hx0)
    · intro hx1
      exact absurd (by simpa using hx1) hx.2

theorem convertTree_leaf_labels_witness :
    ClassifierNode.leafLabels (.node false "" "func" 0 (.node true "B" "" 0 .nil .nil)
        (.node true "Unknown" "" 0 .nil .nil)) =
      (TreeNode.leafValues (.node (some "func > 0.500000") none
        (.node none (some "B") .nil .nil) (.node none none .nil .nil))).map
        (fun v => v.getD "Unknown") :=
  (convertTree_leaf_labels (fun _ => 0)
    (.node (some "func > 0.500000") none (.node none (some "B") .nil .nil)
      (.node none none .nil .nil))
    (.node false "" "func" 0 (.node true "B" "" 0 .nil .nil)
      (.node true "Unknown" "" 0 .nil .nil))
    (by simp +decide [convertTree, stringsSplit, splitChars])).1

/-- C12 (as stated, refuted): the label `func < abc`, whose middle token is not `>` and
whose last token is not a number, does not make `convertTree` fail: it returns a branch on
`func` with the threshold `0` that the failed number parse leaves behind. -/
theorem convertTree_accepts_noncanonical :
    stringsSplit "func < abc" = ["func", "<", "abc"] ∧
    parseFloat "abc" = 0 ∧
    convertTree parseFloat (sampleInduced "func < abc") =
      some (.node false "" "func" 0 (.node true "B" "" 0 .nil .nil)
        (.node true "A" "" 0 .nil .nil)) := by
  have hs : stringsSplit "func < abc" = ["func", "<", "abc"] := by decide
  have hp : parseFloat "abc" = 0 := by
    simp +decide [parseFloat, stripSign, splitChars, parseDigitsAux, digitValue]
  refine ⟨hs, hp, ?_⟩
  rw [sampleInduced, convertTree_branch_of_split parseFloat "func < abc" "func" "<" "abc" _ _ _ hs,
    hp]
  rfl

/-- C12 (amended): `convertTree` fails on every induced branch whose label does not split
at spaces into exactly three tokens; on a label of three tokens it does not fail, whatever
the middle and the last token are, as soon as both children convert. -/
theorem convertTree_strict_on_token_count (ParseFloat : String → ℚ) (label : String)
    (leafValue : Option String) (branchFalse branchTrue : TreeNode) :
    ((stringsSplit label).length ≠ 3 →
      convertTree ParseFloat (.node (some label) leafValue branchFalse branchTrue) = none) ∧
    (∀ c0 c1 c2 falseBranch trueBranch, stringsSplit label = [c0, c1, c2] →
      convertTree ParseFloat branchFalse = some falseBranch →
      convertTree ParseFloat branchTrue = some trueBranch →
      convertTree ParseFloat (.node (some label) leafValue branchFalse branchTrue) =
        some (.node false "" c0 (ParseFloat c2) falseBranch trueBranch)) := by
  refine ⟨convertTree_branch_of_not_split ParseFloat label leafValue branchFalse branchTrue, ?_⟩
  intro c0 c1 c2 fb tb hs hf ht
  rw [convertTree_branch_of_split ParseFloat label c0 c1 c2 _ _ _ hs, hf, ht]
  rfl

theorem convertTree_strict_on_token_count_witness :
    convertTree (fun _ => 0) (sampleInduced "func>0.5") = none :=
  (convertTree_strict_on_token_count (fun _ => 0) "func>0.5" none
    (.node none (some "B") .nil .nil) (.node none (some "A") .nil .nil)).1
    (by simp +decide [stringsSplit, splitChars])

/-- C14: on an induced branch whose label has the three tokens of the canonical form,
`convertTree` returns the branch (`Leaf = false`) over the conversions of the false and
of the true child; and whenever `convertTree` succeeds the result is a strict binary tree
of the same shape as the induced tree. -/
theorem convertTree_branch_shape (ParseFloat : String → ℚ) :
    (∀ (label c0 c1 c2 : String) (leafValue : Option String) (branchFalse branchTrue : TreeNode),
      stringsSplit label = [c0, c1, c2] →
      convertTree ParseFloat (.node (some label) leafValue branchFalse branchTrue) =
        (convertTree ParseFloat branchFalse).bind (fun falseBranch =>
          (convertTree ParseFloat branchTrue).map (fun trueBranch =>
            .node false "" c0 (ParseFloat c2) falseBranch trueBranch))) ∧
    (∀ (t : TreeNode) (node : ClassifierNode), convertTree ParseFloat t = some node →
      node.shape = t.shape ∧ node.StrictBinary) := by
  refine ⟨?_, fun t node h => convertTree_shape ParseFloat t node h⟩
  intro label c0 c1 c2 leafValue branchFalse branchTrue hs
  exact convertTree_branch_of_split ParseFloat label c0 c1 c2 leafValue branchFalse
    branchTrue hs

theorem convertTree_branch_shape_witness :
    ClassifierNode.shape (.node false "" "func" 0 (.node true "B" "" 0 .nil .nil)
        (.node true "A" "" 0 .nil .nil)) = (sampleInduced "func > 0.500000").shape ∧
    ClassifierNode.StrictBinary (.node false "" "func" 0 (.node true "B" "" 0 .nil .nil)
        (.node true "A" "" 0 .nil .nil)) :=
  (convertTree_branch_shape (fun _ => 0)).2 (sampleInduced "func > 0.500000")
    (.node false "" "func" 0 (.node true "B" "" 0 .nil .nil) (.node true "A" "" 0 .nil .nil))
    (by simp +decide [sampleInduced, convertTree, stringsSplit, splitChars])

/-! ## The feature label and the vocabulary -/

theorem digitValue_digitChar (d : ℕ) (hd : d < 10) : digitValue (digitChar d) = some d := by
  interval_cases d <;> rfl

theorem digitChar_ne (d : ℕ) (hd : d < 10) :
    digitChar d ≠ ' ' ∧ digitChar d ≠ '.' ∧ digitChar d ≠ '-' ∧ digitChar d ≠ '+' := by
  interval_cases d <;> decide

theorem parseDigitsAux_natDigitsAux (fuel : ℕ) :
    ∀ (n : ℕ) (acc : List Char), n < 10 ^ fuel →
      parseDigitsAux 0 (natDigitsAux fuel n acc) = parseDigitsAux n acc := by
  induction fuel with
  | zero =>
    intro n acc hn
    have : n = 0 := by simpa using hn
    subst this
    rfl
  | succ fuel ih =>
    intro n acc hn
    by_cases h10 : n < 10
    · simp [natDigitsAux, h10, parseDigitsAux, digitValue_digitChar n h10]
    · have hdiv : n / 10 < 10 ^ fuel := by
        rw [Nat.div_lt_iff_lt_mul (by norm_num)]
        rw [pow_succ] at hn
        exact hn
      have hmod : n % 10 < 10 := Nat.mod_lt _ (by norm_num)
      simp only [natDigitsAux, h10, if_false]
      rw [ih (n / 10) _ hdiv]
      simp only [parseDigitsAux, digitValue_digitChar _ hmod]
      congr 1
      omega

theorem parseDigitsAux_natDigits (n : ℕ) : parseDigitsAux 0 (natDigits n) = some n := by
  have h : n < 10 ^ (n + 1) :=
    lt_trans (Nat.lt_pow_self (by norm_num) n) (Nat.pow_lt_pow_right (by norm_num) (by omega))
  rw [natDigits, parseDigitsAux_natDigitsAux (n + 1) n [] h]
  rfl

theorem parseDigitsAux_fracDigits (m : ℕ) (hm : m < 1000000) :
    parseDigitsAux 0 (fracDigits m) = some m := by
  simp only [fracDigits, parseDigitsAux,
    digitValue_digitChar _ (Nat.mod_lt _ (by norm_num : 10 > 0))]
  congr 1
  omega

theorem natDigitsAux_digits (fuel : ℕ) :
    ∀ (n : ℕ) (acc : List Char), (∀ c ∈ acc, ∃ d, d < 10 ∧ c = digitChar d) →
      ∀ c ∈ natDigitsAux fuel n acc, ∃ d, d < 10 ∧ c = digitChar d := by
  induction fuel with
  | zero =>
    intro n acc hacc c hc
    exact hacc c hc
  | succ fuel ih =>
    intro n acc hacc c hc
    by_cases h10 : n < 10
    · simp only [natDigitsAux, h10, if_true, List.mem_cons] at hc
      rcases hc with rfl | hc
      · exact ⟨n, h10, rfl⟩
      · exact hacc c hc
    · simp only [natDigitsAux, h10, if_false] at hc
      refine ih (n / 10) _ ?_ c hc
      intro c1 hc1
      rcases List.mem_cons.1 hc1 with rfl | hc1
      · exact ⟨n % 10, Nat.mod_lt _ (by norm_num), rfl⟩
      · exact hacc c1 hc1

theorem natDigits_digits (n : ℕ) : ∀ c ∈ natDigits n, ∃ d, d < 10 ∧ c = digitChar d :=
  natDigitsAux_digits (n + 1) n [] (by simp)

theorem fracDigits_digits (m : ℕ) : ∀ c ∈ fracDigits m, ∃ d, d < 10 ∧ c = digitChar d := by
  intro c hc
  simp only [fracDigits, List.mem_cons, List.mem_singleton, List.not_mem_nil, or_false] at hc
  rcases hc with rfl | rfl | rfl | rfl | rfl | rfl <;>
    exact ⟨_, Nat.mod_lt _ (by norm_num), rfl⟩

theorem splitChars_of_not_mem (sep : Char) (a : List Char) (ha : sep ∉ a) :
    splitChars sep a = [a] := by
  induction a with
  | nil => rfl
  | cons c cs ih =>
    have hc : c ≠ sep := fun e => ha (by simp [e])
    have hcs : sep ∉ cs := fun e => ha (by simp [e])
    simp [splitChars, hc, ih hcs]

theorem splitChars_append (sep : Char) (a b : List Char) (ha : sep ∉ a) :
    splitChars sep (a ++ sep :: b) = a :: splitChars sep b := by
  induction a with
  | nil => simp [splitChars]
  | cons c cs ih =>
    have hc : c ≠ sep := fun e => ha (by simp [e])
    have hcs : sep ∉ cs := fun e => ha (by simp [e])
    simp [splitChars, hc, ih hcs]

theorem stripSign_of_unsigned (cs : List Char) (h : ∀ c ∈ cs, c ≠ '-' ∧ c ≠ '+') :
    stripSign cs = (false, cs) := by
  cases cs with
  | nil => rfl
  | cons c rest =>
    have hc := h c (by simp)
    simp [stripSign, hc.1, hc.2]

theorem roundHalfEven_natCast (n : ℕ) : roundHalfEven (n : ℚ) = n := by
  simp [roundHalfEven]

theorem formatFloat_micro (n : ℕ) :
    (formatFloat ((n : ℚ) / 1000000)).data =
      natDigits (n / 1000000) ++ '.' :: fracDigits (n % 1000000) := by
  have hnn : (0 : ℚ) ≤ (n : ℚ) / 1000000 := by positivity
  have habs : |(n : ℚ) / 1000000| * 1000000 = (n : ℚ) := by
    rw [abs_of_nonneg hnn]
    field_simp
  simp only [formatFloat, habs, roundHalfEven_natCast, not_lt.2 hnn, if_false, List.nil_append]

theorem parseFloat_formatFloat_micro (n : ℕ) :
    parseFloat (formatFloat ((n : ℚ) / 1000000)) = (n : ℚ) / 1000000 := by
  have hunsigned : ∀ c ∈ natDigits (n / 1000000) ++ '.' :: fracDigits (n % 1000000),
      c ≠ '-' ∧ c ≠ '+' := by
    intro c hc
    rcases List.mem_append.1 hc with hc | hc
    · obtain ⟨d, hd, rfl⟩ := natDigits_digits _ c hc
      exact ⟨(digitChar_ne d hd).2.2.1, (digitChar_ne d hd).2.2.2⟩
    · rcases List.mem_cons.1 hc with rfl | hc
      · decide
      · obtain ⟨d, hd, rfl⟩ := fracDigits_digits _ c hc
        exact ⟨(digitChar_ne d hd).2.2.1, (digitChar_ne d hd).2.2.2⟩
  have hip : '.' ∉ natDigits (n / 1000000) := by
    intro hc
    obtain ⟨d, hd, he⟩ := natDigits_digits _ _ hc
    exact (digitChar_ne d hd).2.1 he.symm
  have hfp : '.' ∉ fracDigits (n % 1000000) := by
    intro hc
    obtain ⟨d, hd, he⟩ := fracDigits_digits _ _ hc
    exact (digitChar_ne d hd).2.1 he.symm
  have hmod : n % 1000000 < 1000000 := Nat.mod_lt _ (by norm_num)
  have hlen : (fracDigits (n % 1000000)).length = 6 := rfl
  have hval : ((n / 1000000 : ℕ) : ℚ) + ((n % 1000000 : ℕ) : ℚ) / 10 ^ 6 = (n : ℚ) / 1000000 := by
    have h := Nat.div_add_mod n 1000000
    have hq : (n : ℚ) = 1000000 * ((n / 1000000 : ℕ) : ℚ) + ((n % 1000000 : ℕ) : ℚ) := by
      exact_mod_cast h.symm
    rw [hq]
    field_simp
    ring
  simp only [parseFloat, formatFloat_micro, stripSign_of_unsigned _ hunsigned,
    splitChars_append _ _ _ hip, splitChars_of_not_mem _ _ hfp, parseDigitsAux_natDigits,
    parseDigitsAux_fracDigits _ hmod, hlen]
  simpa using hval

theorem stringsSplit_label (word number : String) (hw : ' ' ∉ word.data)
    (hn : ' ' ∉ number.data) : stringsSplit (word ++ " > " ++ number) = [word, ">", number] := by
  have hdata : (word ++ " > " ++ number).data =
      word.data ++ ' ' :: (['>'] ++ ' ' :: number.data) := by
    simp [String.data_append]
  have hgt : ' ' ∉ ['>'] := by decide
  simp only [stringsSplit, hdata, splitChars_append _ _ _ hw, splitChars_append _ _ _ hgt,
    splitChars_of_not_mem _ _ hn]
  rfl

theorem formatFloat_micro_no_space (n : ℕ) : ' ' ∉ (formatFloat ((n : ℚ) / 1000000)).data := by
  rw [formatFloat_micro]
  intro hc
  rcases List.mem_append.1 hc with hc | hc
  · obtain ⟨d, hd, he⟩ := natDigits_digits _ _ hc
    exact (digitChar_ne d hd).1 he.symm
  · rcases List.mem_cons.1 hc with he | hc
    · exact absurd he (by decide)
    · obtain ⟨d, hd, he⟩ := fracDigits_digits _ _ hc
      exact (digitChar_ne d hd).1 he.symm

theorem formatFloat_third : formatFloat (1 / 3) = "0.333333" := by
  have e : |(1 / 3 : ℚ)| * 1000000 = 1000000 / 3 := by norm_num [abs_of_pos]
  have fl : ⌊(1000000 / 3 : ℚ)⌋ = 333333 := by
    rw [Int.floor_eq_iff]
    norm_num
  have tn : Int.toNat 333333 = 333333 := rfl
  have h : roundHalfEven (|(1 / 3 : ℚ)| * 1000000) = 333333 := by
    rw [e]
    unfold roundHalfEven
    simp only [fl, tn]
    norm_num
  unfold formatFloat
  rw [h, if_neg (by norm_num)]
  decide

theorem formatFloat_half : formatFloat (1 / 2) = "0.500000" := by
  have e : |(1 / 2 : ℚ)| * 1000000 = ((500000 : ℕ) : ℚ) := by norm_num [abs_of_pos]
  unfold formatFloat
  rw [e, roundHalfEven_natCast, if_neg (by norm_num)]
  decide

theorem parseFloat_third : parseFloat "0.333333" = 333333 / 1000000 := by
  have h : ("0.333333" : String) = formatFloat (((333333 : ℕ) : ℚ) / 1000000) := by
    apply String.ext
    rw [formatFloat_micro]
    decide
  rw [h, parseFloat_formatFloat_micro]
  norm_num

/-- C13 (as stated, refuted): the label of the word `a b` and the threshold `1/2` makes
`convertTree` fail, and the label of the word `func` and the threshold `1/3` is parsed
back into the threshold `333333/1000000`. -/
theorem convertTree_label_not_roundtrip :
    canonicalLabel "a b" (1 / 2) = "a b > 0.500000" ∧
    convertTree parseFloat (sampleInduced (canonicalLabel "a b" (1 / 2))) = none ∧
    canonicalLabel "func" (1 / 3) = "func > 0.333333" ∧
    convertTree parseFloat (sampleInduced (canonicalLabel "func" (1 / 3))) =
      some (.node false "" "func" (333333 / 1000000) (.node true "B" "" 0 .nil .nil)
        (.node true "A" "" 0 .nil .nil)) ∧
    (333333 / 1000000 : ℚ) ≠ 1 / 3 := by
  have h1 : canonicalLabel "a b" (1 / 2) = "a b > 0.500000" := by
    rw [canonicalLabel, formatFloat_half]
    decide
  have h2 : canonicalLabel "func" (1 / 3) = "func > 0.333333" := by
    rw [canonicalLabel, formatFloat_third]
    decide
  refine ⟨h1, ?_, h2, ?_, by norm_num⟩
  · rw [h1]
    exact convertTree_branch_of_not_split parseFloat _ _ _ _ (by decide)
  · rw [h2, sampleInduced,
      convertTree_branch_of_split parseFloat "func > 0.333333" "func" ">" "0.333333" _ _ _
        (by decide), parseFloat_third]
    rfl

/-- C13 (amended): for a word without a space and a threshold that is a whole number of
millionths (what `%f` prints exactly), the canonical label is parsed by `convertTree`
back into a branch with that word as `Keyword` and that threshold as `Threshold`. -/
theorem convertTree_canonicalLabel (word : String) (n : ℕ) (leafValue : Option String)
    (branchFalse branchTrue : TreeNode) (falseBranch trueBranch : ClassifierNode)
    (hword : ' ' ∉ word.data)
    (hfalse : convertTree parseFloat branchFalse = some falseBranch)
    (htrue : convertTree parseFloat branchTrue = some trueBranch) :
    convertTree parseFloat
        (.node (some (canonicalLabel word ((n : ℚ) / 1000000))) leafValue branchFalse
          branchTrue) =
      some (.node false "" word ((n : ℚ) / 1000000) falseBranch trueBranch) := by
  have hs := stringsSplit_label word (formatFloat ((n : ℚ) / 1000000)) hword
    (formatFloat_micro_no_space n)
  rw [canonicalLabel, convertTree_branch_of_split parseFloat _ _ _ _ _ _ _ hs, hfalse, htrue,
    parseFloat_formatFloat_micro]
  rfl

theorem convertTree_canonicalLabel_witness :
    ' ' ∉ ("func" : String).data ∧
    convertTree parseFloat
        (.node (some (canonicalLabel "func" (((250000 : ℕ) : ℚ) / 1000000))) none
          (.node none (some "B") .nil .nil) (.node none (some "A") .nil .nil)) =
      some (.node false "" "func" (((250000 : ℕ) : ℚ) / 1000000)
        (.node true "B" "" 0 .nil .nil) (.node true "A" "" 0 .nil .nil)) :=
  ⟨by decide,
    convertTree_canonicalLabel "func" 250000 none (.node none (some "B") .nil .nil)
      (.node none (some "A") .nil .nil) (.node true "B" "" 0 .nil .nil)
      (.node true "A" "" 0 .nil .nil) (by decide) (by simp [convertTree])
      (by simp [convertTree])⟩

theorem nodup_insertWord (words : List String) (word : String) (h : words.Nodup) :
    (insertWord words word).Nodup := by
  unfold insertWord
  split
  · exact h
  · next hw =>
    rw [List.nodup_append]
    exact ⟨h, by simp, by simpa using hw⟩

theorem mem_insertWord (words : List String) (word w : String) :
    w ∈ insertWord words word ↔ w ∈ words ∨ w = word := by
  unfold insertWord
  split
  · next hw =>
    constructor
    · exact Or.inl
    · rintro (h | rfl)
      · exact h
      · exact hw
  · simp

theorem nodup_foldl {α : Type} (f : List String → α → List String)
    (hf : ∀ words a, words.Nodup → (f words a).Nodup) (l : List α) (words : List String)
    (h : words.Nodup) : (l.foldl f words).Nodup := by
  induction l generalizing words with
  | nil => exact h
  | cons a rest ih => exact ih _ (hf words a h)

theorem mem_foldl {α : Type} (f : List String → α → List String) (g : α → String → Prop)
    (hf : ∀ words a w, w ∈ f words a ↔ w ∈ words ∨ g a w) (l : List α) (words : List String)
    (w : String) : w ∈ l.foldl f words ↔ w ∈ words ∨ ∃ a ∈ l, g a w := by
  induction l generalizing words with
  | nil => simp
  | cons a rest ih =>
    rw [List.foldl_cons, ih, hf]
    simp only [List.mem_cons, exists_eq_or_imp]
    tauto

theorem nodup_insertWords (words : List String) (wordMap : Frequencies) (h : words.Nodup) :
    (insertWords words wordMap).Nodup :=
  nodup_foldl insertWord nodup_insertWord _ _ h

theorem mem_insertWords (words : List String) (wordMap : Frequencies) (w : String) :
    w ∈ insertWords words wordMap ↔ w ∈ words ∨ w ∈ wordMap.keys := by
  unfold insertWords
  rw [mem_foldl insertWord (fun word w => w = word) mem_insertWord]
  simp

theorem nodup_collectWords (freqs : List (String × List Frequencies)) :
    (collectWords freqs).Nodup :=
  nodup_foldl _ (fun words entry h => nodup_foldl insertWords nodup_insertWords entry.2 words h)
    freqs [] List.nodup_nil

theorem mem_collectWords (freqs : List (String × List Frequencies)) (w : String) :
    w ∈ collectWords freqs ↔ ∃ entry ∈ freqs, ∃ wordMap ∈ entry.2, w ∈ wordMap.keys := by
  unfold collectWords
  rw [mem_foldl (fun words (entry : String × List Frequencies) => collectSamples words entry.2)
    (fun entry w => ∃ wordMap ∈ entry.2, w ∈ Frequencies.keys wordMap)]
  · simp
  · intro words entry v
    unfold collectSamples
    exact mem_foldl insertWords (fun wordMap v => v ∈ Frequencies.keys wordMap)
      mem_insertWords entry.2 words v

/-- C16: every sequence `Keywords` that `GenerateClassifier` can build is duplicate-free
and holds exactly the words that are a key of some sample's raw word-count map. -/
theorem keywords_nodup_union (freqs : List (String × List Frequencies))
    (keywords : List String) (h : IsKeywords freqs keywords) :
    keywords.Nodup ∧
    ∀ w, w ∈ keywords ↔ ∃ entry ∈ freqs, ∃ wordMap ∈ entry.2, w ∈ wordMap.keys := by
  refine ⟨(List.Perm.nodup_iff h).2 (nodup_collectWords freqs), ?_⟩
  intro w
  rw [List.Perm.mem_iff h, mem_collectWords]

theorem keywords_nodup_union_witness :
    (["if", "func"] : List String).Nodup ∧
    ∀ w, w ∈ (["if", "func"] : List String) ↔
      ∃ entry ∈ sampleFreqs, ∃ wordMap ∈ entry.2, w ∈ Frequencies.keys wordMap :=
  keywords_nodup_union sampleFreqs ["if", "func"] (List.Perm.swap "func" "if" [])

/-- C17 (as stated, refuted): on the sample input both `func, if` and `if, func` are
sequences `GenerateClassifier` can build, so the order is not fixed by the input. -/
theorem keywords_order_not_fixed :
    IsKeywords sampleFreqs ["func", "if"] ∧ IsKeywords sampleFreqs ["if", "func"] ∧
    (["func", "if"] : List String) ≠ ["if", "func"] :=
  ⟨List.Perm.refl _, List.Perm.swap "func" "if" [], by decide⟩

/-- C17 (amended): the words of the vocabulary are fixed by the input, their order is not:
two sequences `GenerateClassifier` can build on the same input list the same words, each
once, and as soon as there are two words some two runs can differ in the order. -/
theorem keywords_perm (freqs : List (String × List Frequencies)) :
    (∀ k1 k2, IsKeywords freqs k1 → IsKeywords freqs k2 → k1.Perm k2) ∧
    (2 ≤ (collectWords freqs).length →
      ∃ k1 k2, IsKeywords freqs k1 ∧ IsKeywords freqs k2 ∧ k1 ≠ k2) := by
  refine ⟨fun k1 k2 h1 h2 => h1.trans h2.symm, ?_⟩
  intro hlen
  have hnd := nodup_collectWords freqs
  match hw : collectWords freqs, hlen, hnd with
  | a :: b :: rest, _, hnd =>
    refine ⟨a :: b :: rest, b :: a :: rest, ?_, ?_, ?_⟩
    · rw [IsKeywords, hw]
    · rw [IsKeywords, hw]
      exact List.Perm.swap a b rest
    · intro he
      have hab : a = b := by
        injection he
      rw [hab] at hnd
      simp at hnd

theorem keywords_perm_witness :
    ∃ k1 k2, IsKeywords sampleFreqs k1 ∧ IsKeywords sampleFreqs k2 ∧ k1 ≠ k2 :=
  (keywords_perm sampleFreqs).2 (by decide)

end Whichlang
